import Mathlib

/-!
Verification of the two utility routines of the character-level RNN notebook
(`src/simple-RNN/main.ipynb`): the mini-batch generator `get_batches` and the
top-n sampling routine `pick_top_n`.

The numpy code is embedded over `List`:

* integer-encoded symbols become `Nat`, the encoded corpus a `List Nat`;
* a two-dimensional numpy block becomes a `List (List Nat)` of its rows;
* probabilities become `ℚ` (the sampler only compares, zeroes, sums and
  divides entries, all exact on rationals);
* the generator `get_batches` becomes the finite list of the batches it
  yields, in order;
* `np.random.choice(v, 1, p=q)` becomes the inverse-CDF draw at a uniform
  variate `u ∈ [0,1)` supplied explicitly (numpy draws `u` and picks the
  least index whose cumulative weight exceeds `u`).
-/

namespace RNN

/-- Embeds `chars_per_batch = batch_size * n_steps` from `get_batches`. -/
def charsPerBatch (batch_size n_steps : Nat) : Nat := batch_size * n_steps

/-- Embeds `n_batches = len(arr) // chars_per_batch` from `get_batches`. -/
def nBatches (len batch_size n_steps : Nat) : Nat := len / charsPerBatch batch_size n_steps

/-- Embeds `arr = arr[:n_batches * chars_per_batch]`: keep only whole batches. -/
def truncateArr (arr : List Nat) (batch_size n_steps : Nat) : List Nat :=
  arr.take (nBatches arr.length batch_size n_steps * charsPerBatch batch_size n_steps)

/-- Length of each row after `arr.reshape((batch_size, -1))`, namely
`n_batches * n_steps`. -/
def laneLength (len batch_size n_steps : Nat) : Nat := nBatches len batch_size n_steps * n_steps

/-- Embeds `arr.reshape((batch_size, -1))` on the truncated array: row `i` of a
row-major reshape is the `i`-th contiguous run of `laneLength` elements. -/
def lanes (arr : List Nat) (batch_size n_steps : Nat) : List (List Nat) :=
  (List.range batch_size).map fun i =>
    ((truncateArr arr batch_size n_steps).drop
        (i * laneLength arr.length batch_size n_steps)).take
      (laneLength arr.length batch_size n_steps)

/-- Embeds `x = arr[:, n:n+n_steps]`: the input window starting at column `n`. -/
def xWindow (rows : List (List Nat)) (n_steps n : Nat) : List (List Nat) :=
  rows.map fun row => (row.drop n).take n_steps

/-- Embeds `y_temp = arr[:, n+1:n+n_steps+1]; y = np.zeros(x.shape); y[:,:y_temp.shape[1]] = y_temp`:
the target window, shifted one column right and zero-filled where the slice
runs past the end of the row. -/
def yWindow (rows : List (List Nat)) (n_steps n : Nat) : List (List Nat) :=
  rows.map fun row =>
    ((row.drop (n + 1)).take n_steps) ++
      List.replicate (n_steps - ((row.drop (n + 1)).take n_steps).length) 0

/-- The full batch generator: the list of `(x, y)` pairs yielded by
`get_batches(arr, batch_size, n_steps)`, one per window start
`n = k * n_steps` for `k < n_batches` (the Python loop
`for n in range(0, arr.shape[1], n_steps)` with `arr.shape[1] = n_batches * n_steps`). -/
def get_batches (arr : List Nat) (batch_size n_steps : Nat) :
    List (List (List Nat) × List (List Nat)) :=
  (List.range (nBatches arr.length batch_size n_steps)).map fun k =>
    (xWindow (lanes arr batch_size n_steps) n_steps (k * n_steps),
     yWindow (lanes arr batch_size n_steps) n_steps (k * n_steps))

/-- Entry `m[i][j]` of an embedded two-dimensional block (0 outside bounds). -/
def entryAt (m : List (List Nat)) (i j : Nat) : Nat := (m.getD i []).getD j 0

/-- Reads `input[i][j]` of batch `k` of an embedded batch list. -/
def inputAt (bs : List (List (List Nat) × List (List Nat))) (k i j : Nat) : Nat :=
  entryAt (bs.getD k ([], [])).1 i j

/-- Reads `target[i][j]` of batch `k` of an embedded batch list. -/
def targetAt (bs : List (List (List Nat) × List (List Nat))) (k i j : Nat) : Nat :=
  entryAt (bs.getD k ([], [])).2 i j

/-! ## The constrained sampler `pick_top_n`

```
def pick_top_n(preds, vocab_size, top_n=5):
    p = np.squeeze(preds)
    p[np.argsort(p)[:-top_n]] = 0
    p = p / np.sum(p)
    c = np.random.choice(vocab_size, 1, p=p)[0]
    return c
```

`np.squeeze(preds)` returns a view of the caller's array, so the fancy-index
assignment on the next line writes through to `preds`; `p = p / np.sum(p)`
then rebinds `p` to a fresh array. The embedding therefore returns both the
post-call state of the caller's `preds` and the drawn index. Randomness is
made explicit: `np.random.choice(v, 1, p=q)` draws a uniform variate
`u ∈ [0,1)` and returns the least index whose cumulative weight exceeds `u`
(`cdf.searchsorted(u, side='right')`). -/

/-- Embeds `np.argsort(p)`: the indices of `p` sorted by ascending value. The
embedding sorts stably; numpy's default quicksort may break ties in another
order, and every property proved below uses only that the result is a
permutation of `0..len-1` that is monotone in the values. -/
def argsortAsc (p : List ℚ) : List Nat :=
  List.insertionSort (fun i j => p.getD i 0 ≤ p.getD j 0) (List.range p.length)

/-- The index array `np.argsort(p)[:-top_n]` whose positions get zeroed.
A Python slice `[:-t]` is empty for `t = 0` (because `-0 = 0`, so it is
`[:0]`) and for `t ≥ len`; `Nat` subtraction gives the latter for free. -/
def zeroIdx (p : List ℚ) (top_n : Nat) : List Nat :=
  if top_n = 0 then [] else (argsortAsc p).take (p.length - top_n)

/-- The state of `p` — and, through the `np.squeeze` view, of the caller's
`preds` — after the in-place assignment `p[np.argsort(p)[:-top_n]] = 0`. -/
def zeroOut (p : List ℚ) (top_n : Nat) : List ℚ :=
  (List.range p.length).map fun i => if i ∈ zeroIdx p top_n then 0 else p.getD i 0

/-- The failure cases `np.random.choice(vocab_size, 1, p=p)` can raise on this
code path: `p` has a size other than `vocab_size`, or the division by a zero
`np.sum(p)` produced an invalid (NaN) weight vector. -/
inductive SamplerError where
  | sizeMismatch : SamplerError
  | degenerateDistribution : SamplerError
deriving DecidableEq

/-- The inverse-CDF draw of `np.random.choice` at uniform variate `u`: the
least index whose cumulative weight exceeds `u`. -/
def npChoice : List ℚ → ℚ → Nat
  | [], _ => 0
  | x :: rest, u => if u < x then 0 else npChoice rest (u - x) + 1

/-- Embeds `pick_top_n(preds, vocab_size, top_n)` at uniform variate `u`, returning
the post-call state of the caller's `preds` together with the drawn index. -/
def pick_top_n (preds : List ℚ) (vocab_size top_n : Nat) (u : ℚ) :
    Except SamplerError (List ℚ × Nat) :=
  if vocab_size = (zeroOut preds top_n).length then
    if (zeroOut preds top_n).sum = 0 then .error .degenerateDistribution
    else .ok (zeroOut preds top_n,
      npChoice ((zeroOut preds top_n).map fun x => x / (zeroOut preds top_n).sum) u)
  else .error .sizeMismatch

example : lanes (List.range 20) 2 5 =
    [[0, 1, 2, 3, 4, 5, 6, 7, 8, 9], [10, 11, 12, 13, 14, 15, 16, 17, 18, 19]] := by decide

example : get_batches [0, 1, 2, 3, 4, 5] 2 3 =
    [([[0, 1, 2], [3, 4, 5]], [[1, 2, 0], [4, 5, 0]])] := by decide

lemma length_truncateArr (arr : List Nat) (N M : Nat) :
    (truncateArr arr N M).length = nBatches arr.length N M * charsPerBatch N M := by
  simp only [truncateArr, List.length_take]
  exact Nat.min_eq_left (Nat.div_mul_le_self _ _)

lemma length_lanes (arr : List Nat) (N M : Nat) : (lanes arr N M).length = N := by
  simp [lanes]

lemma trunc_eq_mul_laneLength (arr : List Nat) (N M : Nat) :
    nBatches arr.length N M * charsPerBatch N M = N * laneLength arr.length N M := by
  unfold laneLength charsPerBatch
  ring

lemma length_of_mem_lanes (arr : List Nat) (N M : Nat) (row : List Nat)
    (h : row ∈ lanes arr N M) : row.length = laneLength arr.length N M := by
  simp only [lanes, List.mem_map, List.mem_range] at h
  obtain ⟨i, hi, rfl⟩ := h
  simp only [List.length_take, List.length_drop, length_truncateArr,
    trunc_eq_mul_laneLength]
  have h1 : (i + 1) * laneLength arr.length N M ≤ N * laneLength arr.length N M :=
    Nat.mul_le_mul_right _ hi
  have h2 : (i + 1) * laneLength arr.length N M =
      i * laneLength arr.length N M + laneLength arr.length N M := by ring
  omega

/-- C1: with `batch_size ≥ 1`, `n_steps ≥ 1` and `len(arr) ≥ batch_size*n_steps`,
`get_batches` yields exactly `len(arr) / (batch_size*n_steps)` batches, and each
batch is a pair of blocks, each with `batch_size` rows of `n_steps` entries. -/
theorem get_batches_count_and_shape (arr : List Nat) (N M : Nat)
    (hN : 1 ≤ N) (hM : 1 ≤ M) (hL : N * M ≤ arr.length) :
    (get_batches arr N M).length = arr.length / (N * M) ∧
    ∀ b ∈ get_batches arr N M,
      b.1.length = N ∧ b.2.length = N ∧
      (∀ row ∈ b.1, row.length = M) ∧ (∀ row ∈ b.2, row.length = M) := by
  constructor
  · simp [get_batches, nBatches, charsPerBatch]
  · intro b hb
    simp only [get_batches, List.mem_map, List.mem_range] at hb
    obtain ⟨k, hk, rfl⟩ := hb
    refine ⟨by simp [xWindow, length_lanes], by simp [yWindow, length_lanes], ?_, ?_⟩
    · intro row hrow
      simp only [xWindow, List.mem_map] at hrow
      obtain ⟨row0, hrow0, rfl⟩ := hrow
      have hlen := length_of_mem_lanes arr N M row0 hrow0
      have h1 : (k + 1) * M ≤ nBatches arr.length N M * M := Nat.mul_le_mul_right _ hk
      have h2 : (k + 1) * M = k * M + M := by ring
      simp only [List.length_take, List.length_drop, hlen, laneLength]
      omega
    · intro row hrow
      simp only [yWindow, List.mem_map] at hrow
      obtain ⟨row0, hrow0, rfl⟩ := hrow
      have h3 : ((row0.drop (k * M + 1)).take M).length ≤ M := by
        simp only [List.length_take]
        exact Nat.min_le_left _ _
      simp only [List.length_append, List.length_replicate]
      omega

/-- Closed instance of C1's theorem at `arr = [0..5]`, `batch_size = 2`,
`n_steps = 3`, discharging its hypotheses. -/
theorem get_batches_count_and_shape_witness :
    (get_batches [0, 1, 2, 3, 4, 5] 2 3).length = ([0, 1, 2, 3, 4, 5] : List Nat).length / (2 * 3) ∧
    ∀ b ∈ get_batches [0, 1, 2, 3, 4, 5] 2 3,
      b.1.length = 2 ∧ b.2.length = 2 ∧
      (∀ row ∈ b.1, row.length = 3) ∧ (∀ row ∈ b.2, row.length = 3) :=
  get_batches_count_and_shape [0, 1, 2, 3, 4, 5] 2 3 (by decide) (by decide) (by decide)

/-- C3: the truncated sequence is split row-major into contiguous lanes; on
`arr = [0..19]`, `batch_size = 2`, `n_steps = 5` the lanes are `[0..9]` and
`[10..19]` and the first batch is as the spec states. -/
theorem get_batches_row_major_example :
    lanes (List.range 20) 2 5 =
      [[0, 1, 2, 3, 4, 5, 6, 7, 8, 9], [10, 11, 12, 13, 14, 15, 16, 17, 18, 19]] ∧
    (get_batches (List.range 20) 2 5).getD 0 ([], []) =
      ([[0, 1, 2, 3, 4], [10, 11, 12, 13, 14]], [[1, 2, 3, 4, 5], [11, 12, 13, 14, 15]]) := by
  decide

/-- C5: when `len(arr) < batch_size * n_steps` (zero full batches fit) the
generator degenerates to the empty sequence of batches; no error is raised. -/
theorem get_batches_insufficient_data (arr : List Nat) (N M : Nat)
    (h : arr.length < N * M) : get_batches arr N M = [] := by
  have h0 : nBatches arr.length N M = 0 := Nat.div_eq_of_lt h
  simp [get_batches, h0]

/-- Closed instance of C5's theorem: two symbols cannot fill a 2×3 batch. -/
theorem get_batches_insufficient_data_witness : get_batches [0, 1] 2 3 = [] :=
  get_batches_insufficient_data [0, 1] 2 3 (by decide)

/-- C4: when `len(arr) = N*M*K + r` with `0 < r < N*M`, the batches are those
of the first `N*M*K` elements alone: the trailing `r` elements influence no
batch and hence appear in none. -/
theorem get_batches_truncation (arr : List Nat) (N M K r : Nat)
    (hN : 1 ≤ N) (hM : 1 ≤ M) (hlen : arr.length = N * M * K + r)
    (hr0 : 0 < r) (hr1 : r < N * M) :
    get_batches arr N M = get_batches (arr.take (N * M * K)) N M := by
  have hcpb : 0 < N * M := Nat.mul_pos hN hM
  have hnb : nBatches arr.length N M = K := by
    unfold nBatches charsPerBatch
    rw [hlen, Nat.mul_add_div hcpb, Nat.div_eq_of_lt hr1]
    omega
  have htake_len : (arr.take (N * M * K)).length = N * M * K := by
    rw [List.length_take]
    omega
  have hnb2 : nBatches (arr.take (N * M * K)).length N M = K := by
    unfold nBatches charsPerBatch
    rw [htake_len]
    exact Nat.mul_div_cancel_left K hcpb
  have htr1 : truncateArr arr N M = arr.take (N * M * K) := by
    unfold truncateArr
    rw [hnb]
    show arr.take (K * (N * M)) = arr.take (N * M * K)
    rw [show K * (N * M) = N * M * K from by ring]
  have htr2 : truncateArr (arr.take (N * M * K)) N M = arr.take (N * M * K) := by
    unfold truncateArr
    rw [hnb2]
    show (arr.take (N * M * K)).take (K * (N * M)) = arr.take (N * M * K)
    rw [show K * (N * M) = N * M * K from by ring, List.take_take, Nat.min_self]
  have hll : laneLength (arr.take (N * M * K)).length N M = laneLength arr.length N M := by
    unfold laneLength
    rw [hnb, hnb2]
  have hlanes : lanes arr N M = lanes (arr.take (N * M * K)) N M := by
    unfold lanes
    rw [htr1, htr2, hll]
  unfold get_batches
  rw [hnb, hnb2, hlanes]

/-- Closed instance of C4's theorem at `arr = [0..6]`, `N = 2`, `M = 3`,
`K = 1`, `r = 1`. -/
theorem get_batches_truncation_witness :
    get_batches [0, 1, 2, 3, 4, 5, 6] 2 3 =
      get_batches (([0, 1, 2, 3, 4, 5, 6] : List Nat).take (2 * 3 * 1)) 2 3 :=
  get_batches_truncation [0, 1, 2, 3, 4, 5, 6] 2 3 1 1 (by decide) (by decide) (by decide)
    (by decide) (by decide)

/-! Index-level description of the batches: entry `(i, j)` of the input block
of batch `k` is element `i * laneLength + k * n_steps + j` of `arr`, and the
target block is the same indexing shifted one column, zero-filled where the
shift runs off the lane end. -/

lemma get_batches_getD (arr : List Nat) (N M k : Nat)
    (d : List (List Nat) × List (List Nat)) (hk : k < nBatches arr.length N M) :
    (get_batches arr N M).getD k d =
      (xWindow (lanes arr N M) M (k * M), yWindow (lanes arr N M) M (k * M)) := by
  simp [get_batches, List.getD_eq_getElem?_getD, List.getElem?_range hk]

lemma lanes_getD (arr : List Nat) (N M i : Nat) (hi : i < N) :
    (lanes arr N M).getD i [] =
      ((truncateArr arr N M).drop (i * laneLength arr.length N M)).take
        (laneLength arr.length N M) := by
  simp [lanes, List.getD_eq_getElem?_getD, List.getElem?_range hi]

lemma getD_take_drop (row : List Nat) (m n j : Nat) (hj : j < m) :
    ((row.drop n).take m).getD j 0 = row.getD (n + j) 0 := by
  simp [List.getD_eq_getElem?_getD, List.getElem?_take_of_lt hj, List.getElem?_drop]

lemma getD_truncateArr (arr : List Nat) (N M p : Nat)
    (hp : p < nBatches arr.length N M * charsPerBatch N M) :
    (truncateArr arr N M).getD p 0 = arr.getD p 0 := by
  simp [truncateArr, List.getD_eq_getElem?_getD, List.getElem?_take_of_lt hp]

lemma entryAt_xWindow (rows : List (List Nat)) (M n i j : Nat) (hi : i < rows.length) :
    entryAt (xWindow rows M n) i j = (((rows.getD i []).drop n).take M).getD j 0 := by
  simp [entryAt, xWindow, List.getD_eq_getElem?_getD, List.getElem?_eq_getElem hi,
    List.getElem?_map]

lemma entryAt_yWindow (rows : List (List Nat)) (M n i j : Nat) (hi : i < rows.length) :
    entryAt (yWindow rows M n) i j =
      ((((rows.getD i []).drop (n + 1)).take M) ++
        List.replicate (M - (((rows.getD i []).drop (n + 1)).take M).length) 0).getD j 0 := by
  simp [entryAt, yWindow, List.getD_eq_getElem?_getD, List.getElem?_eq_getElem hi,
    List.getElem?_map]

lemma window_lt_laneLength (arr : List Nat) (N M k j : Nat)
    (hk : k < nBatches arr.length N M) (hj : j < M) :
    k * M + j < laneLength arr.length N M := by
  have h1 : (k + 1) * M ≤ nBatches arr.length N M * M := Nat.mul_le_mul_right _ hk
  have h2 : (k + 1) * M = k * M + M := by ring
  unfold laneLength
  omega

lemma lane_index_lt_trunc (arr : List Nat) (N M i p : Nat) (hi : i < N)
    (hp : p < laneLength arr.length N M) :
    i * laneLength arr.length N M + p < nBatches arr.length N M * charsPerBatch N M := by
  rw [trunc_eq_mul_laneLength]
  have h1 : (i + 1) * laneLength arr.length N M ≤ N * laneLength arr.length N M :=
    Nat.mul_le_mul_right _ hi
  have h2 : (i + 1) * laneLength arr.length N M =
      i * laneLength arr.length N M + laneLength arr.length N M := by ring
  omega

/-- Entry `(i, j)` of the input block of batch `k`, read back in `arr`. -/
lemma inputAt_get_batches (arr : List Nat) (N M k i j : Nat)
    (hk : k < nBatches arr.length N M) (hi : i < N) (hj : j < M) :
    inputAt (get_batches arr N M) k i j =
      arr.getD (i * laneLength arr.length N M + (k * M + j)) 0 := by
  have hi' : i < (lanes arr N M).length := by rw [length_lanes]; exact hi
  unfold inputAt
  rw [get_batches_getD arr N M k _ hk]
  rw [entryAt_xWindow _ _ _ _ _ hi', lanes_getD arr N M i hi]
  rw [getD_take_drop _ _ _ _ hj]
  rw [getD_take_drop _ _ _ _ (window_lt_laneLength arr N M k j hk hj)]
  exact getD_truncateArr arr N M _
    (lane_index_lt_trunc arr N M i _ hi (window_lt_laneLength arr N M k j hk hj))

/-- Entry `(i, j)` of the target block of batch `k`: the symbol one column to
the right in the lane, or the zero fill past the lane end. -/
lemma targetAt_get_batches (arr : List Nat) (N M k i j : Nat)
    (hk : k < nBatches arr.length N M) (hi : i < N) (hj : j < M) :
    targetAt (get_batches arr N M) k i j =
      if k * M + j + 1 < laneLength arr.length N M then
        arr.getD (i * laneLength arr.length N M + (k * M + j + 1)) 0
      else 0 := by
  have hi' : i < (lanes arr N M).length := by rw [length_lanes]; exact hi
  unfold targetAt
  rw [get_batches_getD arr N M k _ hk]
  rw [entryAt_yWindow _ _ _ _ _ hi', lanes_getD arr N M i hi]
  set row : List Nat :=
    ((truncateArr arr N M).drop (i * laneLength arr.length N M)).take
      (laneLength arr.length N M) with hrow
  have hrowlen : row.length = laneLength arr.length N M := by
    rw [hrow, List.length_take, List.length_drop, length_truncateArr,
      trunc_eq_mul_laneLength]
    have h1 : (i + 1) * laneLength arr.length N M ≤ N * laneLength arr.length N M :=
      Nat.mul_le_mul_right _ hi
    have h2 : (i + 1) * laneLength arr.length N M =
        i * laneLength arr.length N M + laneLength arr.length N M := by ring
    omega
  have hytlen : ((row.drop (k * M + 1)).take M).length =
      min M (laneLength arr.length N M - (k * M + 1)) := by
    rw [List.length_take, List.length_drop, hrowlen]
  by_cases hcase : k * M + j + 1 < laneLength arr.length N M
  · rw [if_pos hcase]
    have hjlt : j < ((row.drop (k * M + 1)).take M).length := by
      rw [hytlen]
      omega
    rw [List.getD_append _ _ _ _ hjlt]
    rw [getD_take_drop _ _ _ _ hj]
    have hidx : k * M + 1 + j = k * M + j + 1 := by ring
    rw [hidx, hrow]
    rw [getD_take_drop _ _ _ _ hcase]
    exact getD_truncateArr arr N M _ (lane_index_lt_trunc arr N M i _ hi hcase)
  · rw [if_neg hcase]
    have hjge : ((row.drop (k * M + 1)).take M).length ≤ j := by
      rw [hytlen]
      omega
    rw [List.getD_append_right _ _ _ _ hjge]
    simp [List.getD_eq_getElem?_getD, List.getElem?_replicate]
    split <;> rfl

/-- C2: within a batch the target is the input shifted one column
(`target[i][j] = input[i][j+1]` for `j + 1 < M`); across consecutive windows
the last target column is the first input column of the next window; and in
the final window of each lane the overflow position is zero-filled. -/
theorem get_batches_target_is_shift (arr : List Nat) (N M k i j : Nat)
    (hM : 1 ≤ M) (hk : k < nBatches arr.length N M) (hi : i < N) (hj : j < M) :
    (j + 1 < M →
      targetAt (get_batches arr N M) k i j = inputAt (get_batches arr N M) k i (j + 1)) ∧
    (j + 1 = M → k + 1 < nBatches arr.length N M →
      targetAt (get_batches arr N M) k i j = inputAt (get_batches arr N M) (k + 1) i 0) ∧
    (j + 1 = M → k + 1 = nBatches arr.length N M →
      targetAt (get_batches arr N M) k i j = 0) := by
  rw [targetAt_get_batches arr N M k i j hk hi hj]
  refine ⟨?_, ?_, ?_⟩
  · intro hjM
    rw [inputAt_get_batches arr N M k i (j + 1) hk hi hjM]
    have hlt : k * M + j + 1 < laneLength arr.length N M := by
      have hw := window_lt_laneLength arr N M k (j + 1) hk hjM
      omega
    rw [if_pos hlt]
    rfl
  · intro hjM hk1
    rw [inputAt_get_batches arr N M (k + 1) i 0 hk1 hi hM]
    have hmul : (k + 1) * M = k * M + M := by ring
    have hlt : k * M + j + 1 < laneLength arr.length N M := by
      have hw := window_lt_laneLength arr N M (k + 1) 0 hk1 hM
      omega
    rw [if_pos hlt]
    congr 1
    omega
  · intro hjM hkM
    have hmul : (k + 1) * M = k * M + M := by ring
    have hge : ¬ k * M + j + 1 < laneLength arr.length N M := by
      unfold laneLength
      rw [← hkM]
      omega
    rw [if_neg hge]

/-- Closed instance of C2's theorem at `arr = [0..5]`, `N = 2`, `M = 3`,
batch 0, row 0, column 0. -/
theorem get_batches_target_is_shift_witness :
    (0 + 1 < 3 →
      targetAt (get_batches [0, 1, 2, 3, 4, 5] 2 3) 0 0 0 =
        inputAt (get_batches [0, 1, 2, 3, 4, 5] 2 3) 0 0 (0 + 1)) ∧
    (0 + 1 = 3 → 0 + 1 < nBatches ([0, 1, 2, 3, 4, 5] : List Nat).length 2 3 →
      targetAt (get_batches [0, 1, 2, 3, 4, 5] 2 3) 0 0 0 =
        inputAt (get_batches [0, 1, 2, 3, 4, 5] 2 3) (0 + 1) 0 0) ∧
    (0 + 1 = 3 → 0 + 1 = nBatches ([0, 1, 2, 3, 4, 5] : List Nat).length 2 3 →
      targetAt (get_batches [0, 1, 2, 3, 4, 5] 2 3) 0 0 0 = 0) :=
  get_batches_target_is_shift [0, 1, 2, 3, 4, 5] 2 3 0 0 0 (by decide) (by decide)
    (by decide) (by decide)


example : argsortAsc [1/4, 3/4] = [0, 1] := by
  norm_num [argsortAsc, List.insertionSort, List.orderedInsert, List.range_succ]

example : pick_top_n [1/4, 3/4] 2 1 0 = .ok ([0, 3/4], 1) := by
  norm_num [pick_top_n, zeroOut, zeroIdx, argsortAsc, List.insertionSort,
    List.orderedInsert, List.range_succ, npChoice]

example : pick_top_n [1/2, 1/4, 1/4] 3 5 (1/2) = .ok ([1/2, 1/4, 1/4], 1) := by
  norm_num [pick_top_n, zeroOut, zeroIdx, argsortAsc, List.insertionSort,
    List.orderedInsert, List.range_succ, npChoice]

lemma argsortAsc_perm (p : List ℚ) : (argsortAsc p).Perm (List.range p.length) :=
  List.perm_insertionSort _ _

lemma length_argsortAsc (p : List ℚ) : (argsortAsc p).length = p.length := by
  rw [(argsortAsc_perm p).length_eq, List.length_range]

lemma mem_argsortAsc (p : List ℚ) (i : Nat) : i ∈ argsortAsc p ↔ i < p.length := by
  rw [(argsortAsc_perm p).mem_iff, List.mem_range]

lemma nodup_argsortAsc (p : List ℚ) : (argsortAsc p).Nodup :=
  ((argsortAsc_perm p).nodup_iff).mpr (List.nodup_range _)

lemma sorted_argsortAsc (p : List ℚ) :
    (argsortAsc p).Pairwise fun i j => p.getD i 0 ≤ p.getD j 0 := by
  haveI : IsTotal Nat fun i j => p.getD i 0 ≤ p.getD j 0 := ⟨fun _ _ => le_total _ _⟩
  haveI : IsTrans Nat fun i j => p.getD i 0 ≤ p.getD j 0 := ⟨fun _ _ _ h h2 => le_trans h h2⟩
  exact List.sorted_insertionSort _ _

/-- Every zeroed position holds a value no larger than any kept position:
`np.argsort(p)[:-top_n]` keeps the `top_n` indices of largest value. -/
lemma zeroIdx_le_kept (p : List ℚ) (t a b : Nat) (ha : a ∈ zeroIdx p t)
    (hb : b < p.length) (hbk : b ∉ zeroIdx p t) : p.getD a 0 ≤ p.getD b 0 := by
  unfold zeroIdx at ha hbk
  by_cases ht : t = 0
  · rw [if_pos ht] at ha
    exact absurd ha (List.not_mem_nil a)
  · rw [if_neg ht] at ha hbk
    have hbs : b ∈ argsortAsc p := (mem_argsortAsc p b).mpr hb
    have hbdrop : b ∈ (argsortAsc p).drop (p.length - t) := by
      rcases List.mem_append.mp
          ((List.take_append_drop (p.length - t) (argsortAsc p)).symm ▸ hbs) with h | h
      · exact absurd h hbk
      · exact h
    have hpair : ((argsortAsc p).take (p.length - t) ++
        (argsortAsc p).drop (p.length - t)).Pairwise fun i j => p.getD i 0 ≤ p.getD j 0 := by
      rw [List.take_append_drop]
      exact sorted_argsortAsc p
    exact (List.pairwise_append.mp hpair).2.2 a ha b hbdrop

lemma mem_zeroIdx_lt (p : List ℚ) (t a : Nat) (ha : a ∈ zeroIdx p t) : a < p.length := by
  unfold zeroIdx at ha
  split at ha
  · exact absurd ha (List.not_mem_nil a)
  · exact (mem_argsortAsc p a).mp (List.mem_of_mem_take ha)

lemma nodup_zeroIdx (p : List ℚ) (t : Nat) : (zeroIdx p t).Nodup := by
  unfold zeroIdx
  split
  · exact List.nodup_nil
  · exact (List.take_sublist _ _).nodup (nodup_argsortAsc p)

lemma length_zeroIdx (p : List ℚ) (t : Nat) (ht : 1 ≤ t) :
    (zeroIdx p t).length = p.length - t := by
  unfold zeroIdx
  rw [if_neg (by omega), List.length_take, length_argsortAsc]
  omega

lemma length_zeroOut (p : List ℚ) (t : Nat) : (zeroOut p t).length = p.length := by
  simp [zeroOut]

lemma getD_zeroOut (p : List ℚ) (t i : Nat) (hi : i < p.length) :
    (zeroOut p t).getD i 0 = if i ∈ zeroIdx p t then 0 else p.getD i 0 := by
  simp [zeroOut, List.getD_eq_getElem?_getD, List.getElem?_range hi]

lemma map_getD_range (l : List ℚ) : (List.range l.length).map (fun i => l.getD i 0) = l := by
  induction l with
  | nil => rfl
  | cons x xs ih =>
    rw [List.length_cons, List.range_succ_eq_map, List.map_cons, List.map_map]
    have hcomp : ((fun i => (x :: xs).getD i 0) ∘ Nat.succ) = fun i => xs.getD i 0 := by
      funext i
      rfl
    rw [hcomp, ih]
    rfl

lemma sum_eq_sum_getD (l : List ℚ) : l.sum = ∑ i in Finset.range l.length, l.getD i 0 := by
  induction l with
  | nil => simp
  | cons x xs ih =>
    rw [List.sum_cons, List.length_cons, Finset.sum_range_succ']
    simp only [List.getD_cons_succ, List.getD_cons_zero]
    rw [ih]
    ring

lemma zeroOut_nonneg (p : List ℚ) (t : Nat) (hnn : ∀ x ∈ p, 0 ≤ x) :
    ∀ x ∈ zeroOut p t, 0 ≤ x := by
  intro x hx
  simp only [zeroOut, List.mem_map, List.mem_range] at hx
  obtain ⟨i, hi, rfl⟩ := hx
  by_cases hmem : i ∈ zeroIdx p t
  · rw [if_pos hmem]
  · rw [if_neg hmem, List.getD_eq_getElem p 0 hi]
    exact hnn _ (List.getElem_mem hi)

lemma exists_kept (p : List ℚ) (t : Nat) (ht : 1 ≤ t) (hp : p ≠ []) :
    ∃ b, b < p.length ∧ b ∉ zeroIdx p t := by
  have hlen : (argsortAsc p).length = p.length := length_argsortAsc p
  have hplen : 0 < p.length := List.length_pos.mpr hp
  have hpos : 0 < ((argsortAsc p).drop (p.length - t)).length := by
    rw [List.length_drop, hlen]
    omega
  obtain ⟨b, hb⟩ := List.exists_mem_of_length_pos hpos
  refine ⟨b, (mem_argsortAsc p b).mp (List.mem_of_mem_drop hb), ?_⟩
  intro hbz
  unfold zeroIdx at hbz
  rw [if_neg (by omega)] at hbz
  have hnd2 : ((argsortAsc p).take (p.length - t) ++
      (argsortAsc p).drop (p.length - t)).Nodup := by
    rw [List.take_append_drop]
    exact nodup_argsortAsc p
  exact (List.nodup_append.mp hnd2).2.2 hbz hb

/-- With a genuine probability vector and `top_n ≥ 1`, the retained mass is
positive, so the renormalization `p / np.sum(p)` cannot divide by zero. -/
lemma zeroOut_sum_pos (p : List ℚ) (t : Nat) (hnn : ∀ x ∈ p, 0 ≤ x)
    (hsum : p.sum = 1) (ht : 1 ≤ t) : 0 < (zeroOut p t).sum := by
  have hnn2 := zeroOut_nonneg p t hnn
  rcases lt_or_eq_of_le (List.sum_nonneg hnn2) with h | h
  · exact h
  exfalso
  have hall : ∀ x ∈ zeroOut p t, x = 0 := by
    intro x hx
    have h1 : x ≤ (zeroOut p t).sum := List.single_le_sum hnn2 x hx
    have h2 := hnn2 x hx
    linarith [h.symm ▸ h1]
  have hp : p ≠ [] := by
    intro he
    rw [he] at hsum
    norm_num at hsum
  have hkept0 : ∀ i, i < p.length → i ∉ zeroIdx p t → p.getD i 0 = 0 := by
    intro i hi hni
    have hx : (zeroOut p t).getD i 0 = p.getD i 0 := by
      rw [getD_zeroOut p t i hi, if_neg hni]
    have hmem : (zeroOut p t).getD i 0 ∈ zeroOut p t := by
      rw [List.getD_eq_getElem _ 0 (by rw [length_zeroOut]; exact hi)]
      exact List.getElem_mem _
    rw [← hx]
    exact hall _ hmem
  obtain ⟨b, hb, hbk⟩ := exists_kept p t ht hp
  have hb0 : p.getD b 0 = 0 := hkept0 b hb hbk
  have hall0 : ∀ i, i < p.length → p.getD i 0 = 0 := by
    intro i hi
    by_cases hz : i ∈ zeroIdx p t
    · have hle := zeroIdx_le_kept p t i b hz hb hbk
      have hge : 0 ≤ p.getD i 0 := by
        rw [List.getD_eq_getElem p 0 hi]
        exact hnn _ (List.getElem_mem hi)
      linarith [hb0]
    · exact hkept0 i hi hz
  have hzero : p.sum = 0 := by
    rw [sum_eq_sum_getD]
    apply Finset.sum_eq_zero
    intro i hi
    exact hall0 i (Finset.mem_range.mp hi)
  rw [hsum] at hzero
  norm_num at hzero

/-- The inverse-CDF draw lands inside the vector and on an entry of positive
weight whenever `0 ≤ u < sum`. -/
lemma npChoice_pos (q : List ℚ) (u : ℚ) (hu0 : 0 ≤ u) (hu1 : u < q.sum) :
    npChoice q u < q.length ∧ 0 < q.getD (npChoice q u) 0 := by
  induction q generalizing u with
  | nil =>
    rw [List.sum_nil] at hu1
    exact absurd hu1 (not_lt.mpr hu0)
  | cons x rest ih =>
    by_cases hx : u < x
    · refine ⟨?_, ?_⟩
      · simp [npChoice, hx]
      · simp only [npChoice, if_pos hx, List.getD_cons_zero]
        linarith
    · have h1 : 0 ≤ u - x := by
        have := not_lt.mp hx
        linarith
      have h2 : u - x < rest.sum := by
        rw [List.sum_cons] at hu1
        linarith
      obtain ⟨ih1, ih2⟩ := ih (u - x) h1 h2
      refine ⟨?_, ?_⟩
      · simp only [npChoice, if_neg hx, List.length_cons]
        omega
      · simp only [npChoice, if_neg hx, List.getD_cons_succ]
        exact ih2

lemma sum_map_div (l : List ℚ) (s : ℚ) : (l.map fun x => x / s).sum = l.sum / s := by
  induction l with
  | nil => simp
  | cons x xs ih => simp [List.sum_cons, ih, add_div]

lemma getD_map_div (l : List ℚ) (s : ℚ) (i : Nat) (hi : i < l.length) :
    (l.map fun x => x / s).getD i 0 = l.getD i 0 / s := by
  simp [List.getD_eq_getElem?_getD, List.getElem?_eq_getElem hi,
    List.getElem?_map, List.getD_eq_getElem l 0 hi]

/-- Core behavior of `pick_top_n` on a genuine probability vector with
`top_n ≥ 1`: it succeeds, leaves the caller's `preds` in the zeroed state,
and the drawn index is in range, was not zeroed, and had positive original
probability. -/
lemma pick_top_n_ok (preds : List ℚ) (t : Nat) (u : ℚ)
    (hnn : ∀ x ∈ preds, 0 ≤ x) (hsum : preds.sum = 1) (ht : 1 ≤ t)
    (hu0 : 0 ≤ u) (hu1 : u < 1) :
    ∃ c, pick_top_n preds preds.length t u = .ok (zeroOut preds t, c) ∧
      c < preds.length ∧ c ∉ zeroIdx preds t ∧ 0 < preds.getD c 0 := by
  have hspos := zeroOut_sum_pos preds t hnn hsum ht
  have hlen : (zeroOut preds t).length = preds.length := length_zeroOut preds t
  have hq : ((zeroOut preds t).map fun x => x / (zeroOut preds t).sum).sum = 1 := by
    rw [sum_map_div]
    exact div_self (ne_of_gt hspos)
  obtain ⟨hclt, hcpos⟩ :=
    npChoice_pos ((zeroOut preds t).map fun x => x / (zeroOut preds t).sum) u hu0
      (by rw [hq]; exact hu1)
  set c := npChoice ((zeroOut preds t).map fun x => x / (zeroOut preds t).sum) u with hc
  rw [List.length_map, hlen] at hclt
  have hcp : 0 < (zeroOut preds t).getD c 0 := by
    rw [getD_map_div _ _ c (by rw [hlen]; exact hclt)] at hcpos
    rcases div_pos_iff.mp hcpos with ⟨h1, _⟩ | ⟨_, h2⟩
    · exact h1
    · linarith
  have hcz : c ∉ zeroIdx preds t := by
    intro hmem
    rw [getD_zeroOut preds t c hclt, if_pos hmem] at hcp
    exact lt_irrefl 0 hcp
  have hcpred : 0 < preds.getD c 0 := by
    rw [getD_zeroOut preds t c hclt, if_neg hcz] at hcp
    exact hcp
  refine ⟨c, ?_, hclt, hcz, hcpred⟩
  unfold pick_top_n
  rw [if_pos hlen.symm, if_neg (ne_of_gt hspos)]

lemma zeroIdx_out_of_range (p : List ℚ) (t : Nat) (h : t = 0 ∨ p.length ≤ t) :
    zeroIdx p t = [] := by
  unfold zeroIdx
  rcases h with h | h
  · rw [if_pos h]
  · split
    · rfl
    · rw [show p.length - t = 0 from by omega, List.take_zero]

lemma zeroOut_out_of_range (p : List ℚ) (t : Nat) (h : t = 0 ∨ p.length ≤ t) :
    zeroOut p t = p := by
  unfold zeroOut
  rw [zeroIdx_out_of_range p t h]
  have hif : ∀ i : Nat, (if i ∈ ([] : List Nat) then (0 : ℚ) else p.getD i 0) = p.getD i 0 := by
    intro i
    rw [if_neg (List.not_mem_nil i)]
  simp only [hif]
  exact map_getD_range p

/-- C7: for a probability vector and `1 ≤ top_n = k ≤ V`, the drawn index has
fewer than `k` entries strictly above it: its mass is among the `k` largest
(possibly tied with the k-th largest). -/
theorem pick_top_n_within_top_k (preds : List ℚ) (k : Nat) (u : ℚ)
    (hnn : ∀ x ∈ preds, 0 ≤ x) (hsum : preds.sum = 1)
    (hk1 : 1 ≤ k) (hk2 : k ≤ preds.length) (hu0 : 0 ≤ u) (hu1 : u < 1) :
    ∃ p' c, pick_top_n preds preds.length k u = .ok (p', c) ∧
      ((Finset.range preds.length).filter
        fun j => preds.getD c 0 < preds.getD j 0).card < k := by
  obtain ⟨c, hok, hclt, hcz, hcpos⟩ := pick_top_n_ok preds k u hnn hsum hk1 hu0 hu1
  refine ⟨zeroOut preds k, c, hok, ?_⟩
  have hZcard : (zeroIdx preds k).toFinset.card = preds.length - k := by
    rw [List.toFinset_card_of_nodup (nodup_zeroIdx preds k), length_zeroIdx preds k hk1]
  have hZsub : (zeroIdx preds k).toFinset ⊆ Finset.range preds.length := by
    intro a ha
    rw [Finset.mem_range]
    exact mem_zeroIdx_lt preds k a (List.mem_toFinset.mp ha)
  have hKcard : (Finset.range preds.length \ (zeroIdx preds k).toFinset).card = k := by
    rw [Finset.card_sdiff hZsub, Finset.card_range, hZcard]
    omega
  have hcK : c ∈ Finset.range preds.length \ (zeroIdx preds k).toFinset :=
    Finset.mem_sdiff.mpr ⟨Finset.mem_range.mpr hclt, fun hm => hcz (List.mem_toFinset.mp hm)⟩
  have hsubset : ((Finset.range preds.length).filter
      fun j => preds.getD c 0 < preds.getD j 0) ⊆
      (Finset.range preds.length \ (zeroIdx preds k).toFinset).erase c := by
    intro j hj
    obtain ⟨hjr, hjgt⟩ := Finset.mem_filter.mp hj
    have hjz : j ∉ zeroIdx preds k := by
      intro hmem
      have hle := zeroIdx_le_kept preds k j c hmem hclt hcz
      linarith
    rw [Finset.mem_erase]
    refine ⟨?_, Finset.mem_sdiff.mpr ⟨hjr, fun hm => hjz (List.mem_toFinset.mp hm)⟩⟩
    intro he
    rw [he] at hjgt
    exact lt_irrefl _ hjgt
  calc ((Finset.range preds.length).filter
        fun j => preds.getD c 0 < preds.getD j 0).card
      ≤ ((Finset.range preds.length \ (zeroIdx preds k).toFinset).erase c).card :=
        Finset.card_le_card hsubset
    _ = (Finset.range preds.length \ (zeroIdx preds k).toFinset).card - 1 :=
        Finset.card_erase_of_mem hcK
    _ < k := by
        rw [hKcard]
        omega

/-- Closed instance of C7's theorem at `preds = [1/2, 1/2]`, `top_n = 1`,
`u = 0`. -/
theorem pick_top_n_within_top_k_witness :
    ∃ p' c, pick_top_n [1/2, 1/2] ([1/2, 1/2] : List ℚ).length 1 0 = .ok (p', c) ∧
      ((Finset.range ([1/2, 1/2] : List ℚ).length).filter
        fun j => ([1/2, 1/2] : List ℚ).getD c 0 < ([1/2, 1/2] : List ℚ).getD j 0).card < 1 :=
  pick_top_n_within_top_k [1/2, 1/2] 1 0
    (by
      intro x hx
      rcases List.mem_cons.mp hx with rfl | hx2
      · norm_num
      · rcases List.mem_cons.mp hx2 with rfl | hx3
        · norm_num
        · exact absurd hx3 (List.not_mem_nil x))
    (by norm_num) (by norm_num) (by norm_num) (by norm_num) (by norm_num)

/-- C8: on a one-hot distribution (entry `i0` is 1, the rest 0) with any
in-range `top_n ≥ 1`, `pick_top_n` returns `i0` for every value of the
uniform variate: the draw does not depend on the random source. -/
theorem pick_top_n_onehot_deterministic (preds : List ℚ) (i0 k : Nat) (u : ℚ)
    (hi0 : i0 < preds.length) (h1 : preds.getD i0 0 = 1)
    (h0 : ∀ j, j < preds.length → j ≠ i0 → preds.getD j 0 = 0)
    (hk1 : 1 ≤ k) (hk2 : k ≤ preds.length) (hu0 : 0 ≤ u) (hu1 : u < 1) :
    ∃ p', pick_top_n preds preds.length k u = .ok (p', i0) := by
  have hnn : ∀ x ∈ preds, 0 ≤ x := by
    intro x hx
    obtain ⟨j, hj, rfl⟩ := List.mem_iff_getElem.mp hx
    rw [← List.getD_eq_getElem preds 0 hj]
    by_cases hji : j = i0
    · rw [hji, h1]
      norm_num
    · rw [h0 j hj hji]
  have hsum : preds.sum = 1 := by
    rw [sum_eq_sum_getD, Finset.sum_eq_single i0]
    · exact h1
    · intro b hb hbne
      exact h0 b (Finset.mem_range.mp hb) hbne
    · intro habs
      exact absurd (Finset.mem_range.mpr hi0) habs
  obtain ⟨c, hok, hclt, _, hcpos⟩ := pick_top_n_ok preds k u hnn hsum hk1 hu0 hu1
  have hci : c = i0 := by
    by_contra hne
    rw [h0 c hclt hne] at hcpos
    exact lt_irrefl 0 hcpos
  rw [hci] at hok
  exact ⟨zeroOut preds k, hok⟩

/-- Closed instance of C8's theorem at `preds = [0, 1]`, `i0 = 1`,
`top_n = 1`, `u = 0`. -/
theorem pick_top_n_onehot_deterministic_witness :
    ∃ p', pick_top_n [0, 1] ([0, 1] : List ℚ).length 1 0 = .ok (p', 1) :=
  pick_top_n_onehot_deterministic [0, 1] 1 1 0 (by norm_num) (by norm_num)
    (by
      intro j hj hne
      norm_num at hj
      interval_cases j
      · norm_num
      · exact absurd rfl hne)
    (by norm_num) (by norm_num) (by norm_num) (by norm_num)

/-- C9 counterexample: with `preds = [1/4, 3/4]` and `top_n = 1`, after the
call the caller's `preds` array reads `[0, 3/4]` (the `np.squeeze` view wrote
the zeroing through), which differs from the original vector: `pick_top_n` is
not free of side effects on `preds`. -/
theorem pick_top_n_mutates_caller :
    pick_top_n [1/4, 3/4] 2 1 0 = .ok ([0, 3/4], 1) ∧
      ([0, 3/4] : List ℚ) ≠ [1/4, 3/4] := by
  constructor
  · norm_num [pick_top_n, zeroOut, zeroIdx, argsortAsc, List.insertionSort,
      List.orderedInsert, List.range_succ, npChoice]
  · intro h
    rw [List.cons_eq_cons] at h
    norm_num at h

/-- C9 amended: `pick_top_n` does mutate the caller's `preds` through the
`np.squeeze` view — on a successful call each entry of the post-call `preds`
is either zero (a zeroed non-top-n position) or its original value (a kept
position); only the renormalized weight vector is a fresh array. -/
theorem pick_top_n_preds_after_call (preds : List ℚ) (V t : Nat) (u : ℚ)
    (p' : List ℚ) (c : Nat) (h : pick_top_n preds V t u = .ok (p', c)) :
    p'.length = preds.length ∧
    ∀ i, i < preds.length → p'.getD i 0 = 0 ∨ p'.getD i 0 = preds.getD i 0 := by
  have hp' : p' = zeroOut preds t := by
    unfold pick_top_n at h
    split at h
    · split at h
      · exact absurd h (by simp)
      · simp only [Except.ok.injEq, Prod.mk.injEq] at h
        exact h.1.symm
    · exact absurd h (by simp)
  subst hp'
  refine ⟨length_zeroOut preds t, ?_⟩
  intro i hi
  rw [getD_zeroOut preds t i hi]
  split
  · exact Or.inl rfl
  · exact Or.inr rfl

/-- Closed instance of the amended C9 theorem at `preds = [1/4, 3/4]`,
`top_n = 1`: the post-call `preds` is `[0, 3/4]`. -/
theorem pick_top_n_preds_after_call_witness :
    ([0, 3/4] : List ℚ).length = ([1/4, 3/4] : List ℚ).length ∧
    ∀ i, i < ([1/4, 3/4] : List ℚ).length →
      ([0, 3/4] : List ℚ).getD i 0 = 0 ∨
        ([0, 3/4] : List ℚ).getD i 0 = ([1/4, 3/4] : List ℚ).getD i 0 :=
  pick_top_n_preds_after_call [1/4, 3/4] 2 1 0 [0, 3/4] 1
    (by
      norm_num [pick_top_n, zeroOut, zeroIdx, argsortAsc, List.insertionSort,
        List.orderedInsert, List.range_succ, npChoice])

/-- C6 counterexample: `top_n = 0` lies outside `[1, vocab_size]`, yet
`pick_top_n` raises nothing — it returns a normally drawn index (the slice
`np.argsort(p)[:-0]` is empty, so no entry is zeroed). -/
theorem pick_top_n_no_error_at_top_n_zero :
    pick_top_n [1/2, 1/2] 2 0 0 = .ok ([1/2, 1/2], 0) := by
  norm_num [pick_top_n, zeroOut, zeroIdx, argsortAsc, List.insertionSort,
    List.orderedInsert, List.range_succ, npChoice]

/-- C6 amended: `pick_top_n` performs no validation of `top_n` at all; for
`top_n` outside `[1, vocab_size]` and a genuine probability vector the call
succeeds (raises no error). -/
theorem pick_top_n_no_top_n_validation (preds : List ℚ) (t : Nat) (u : ℚ)
    (hout : t = 0 ∨ preds.length ≤ t) (hsum : preds.sum = 1) :
    (pick_top_n preds preds.length t u).isOk = true := by
  have hz := zeroOut_out_of_range preds t hout
  unfold pick_top_n
  rw [hz, hsum, if_pos rfl, if_neg (by norm_num)]
  rfl

/-- Closed instance of the amended C6 theorem at `top_n = 3 > vocab_size = 2`. -/
theorem pick_top_n_no_top_n_validation_witness :
    (pick_top_n [1/2, 1/2] ([1/2, 1/2] : List ℚ).length 3 0).isOk = true :=
  pick_top_n_no_top_n_validation [1/2, 1/2] 3 0 (Or.inr (by norm_num)) (by norm_num)

/-- C10: for `top_n = 0` or `top_n ≥ vocab_size` the slice to zero is empty,
so no entry is zeroed, the renormalization divides by `np.sum(preds) = 1`,
and the draw is over the full original distribution; the caller's `preds` is
returned unchanged and no error is raised. -/
theorem pick_top_n_out_of_range_full_distribution (preds : List ℚ) (t : Nat) (u : ℚ)
    (hout : t = 0 ∨ preds.length ≤ t) (hsum : preds.sum = 1) :
    pick_top_n preds preds.length t u = .ok (preds, npChoice preds u) := by
  have hz := zeroOut_out_of_range preds t hout
  unfold pick_top_n
  rw [hz, hsum, if_pos rfl, if_neg (by norm_num)]
  have hdiv : (preds.map fun x => x / 1) = preds := by
    simp only [div_one]
    exact List.map_id preds
  rw [hdiv]

/-- Closed instance of C10's theorem at `preds = [1/3, 2/3]`,
`top_n = 5 > vocab_size = 2`, `u = 0`. -/
theorem pick_top_n_out_of_range_full_distribution_witness :
    pick_top_n [1/3, 2/3] ([1/3, 2/3] : List ℚ).length 5 0 =
      .ok ([1/3, 2/3], npChoice [1/3, 2/3] 0) :=
  pick_top_n_out_of_range_full_distribution [1/3, 2/3] 5 0 (Or.inr (by norm_num))
    (by norm_num)

end RNN
